import Mathlib

/-!
Verification development for the `onnxdump` repository.

The repository consists of four Python scripts operating on ONNX model
documents:

* `onnx_metadata.py` — export / import / list of `metadata_props`
  (the key-value metadata engine, `import_metadata` lines 62-120);
* `onnx_dump.py` — rich CLI dump (`show_metadata`, `show_operators_table`);
* `onnx_dump_simple.py` — plain CLI dump (`show_model_info`);
* `onnx_viewer_gui.py` — Qt viewer (`update_overview`, `update_structure_tree`).

This file shallowly embeds the pure logic of those scripts: lists model the
protobuf repeated fields, `String` models Python `str`, and the imperative
loops are translated into structural recursions or folds that perform the
same sequence of updates.  Python `dict` insertion-order semantics
(first-insertion fixes the position of a key, later assignments overwrite
the value in place) are modelled by the `dictInsert` / `tallyInsert` /
`groupInsert` update functions below.
-/

namespace Onnxdump

/-- A `metadata_props` entry: `(key, value)`, modelling the protobuf
`StringStringEntryProto` fields `prop.key` / `prop.value`. -/
abbrev MProp := String × String

/-! ### String helpers shared by the embeddings

Python compares strings lexicographically by code point; `charListLt` /
`charListLe` are exactly that order on the underlying character lists
(kept as structural `Bool` recursions so concrete instances reduce). -/

/-- Strict lexicographic code-point order on character lists
(Python `str.__lt__`). -/
def charListLt : List Char → List Char → Bool
  | [], [] => false
  | [], _ :: _ => true
  | _ :: _, [] => false
  | a :: as, b :: bs =>
    if a.toNat < b.toNat then true
    else if b.toNat < a.toNat then false
    else charListLt as bs

/-- Non-strict lexicographic code-point order on character lists
(Python `str.__le__`). -/
def charListLe : List Char → List Char → Bool
  | [], _ => true
  | _ :: _, [] => false
  | a :: as, b :: bs =>
    if a.toNat < b.toNat then true
    else if b.toNat < a.toNat then false
    else charListLe as bs

/-- `strLt a b` models Python `a < b` on strings. -/
def strLt (a b : String) : Bool := charListLt a.data b.data

/-- `strLe a b` models Python `a <= b` on strings. -/
def strLe (a b : String) : Bool := charListLe a.data b.data

/-! ### `onnx_metadata.py` — record parsing (`import_metadata`, lines 62-78)

```
metadata_dict = {}
for line in f:
    line = line.rstrip('\n')
    if not line:
        continue
    parts = line.split('\t', 1)
    if len(parts) == 2:
        key, value = parts
        metadata_dict[key] = value
    else:
        print(f"警告: 跳过无效行: {line}", file=sys.stderr)
```

The file is modelled as the list of raw lines the `for line in f` loop
yields (each line carries its trailing newline, except possibly the
last). -/

/-- `line.rstrip('\n')`: remove every trailing newline character. -/
def stripNl (s : String) : String :=
  ⟨(s.data.reverse.dropWhile (· == '\n')).reverse⟩

/-- `line.split('\t', 1)`: split on the first tab only.  Returns `none` when
the line holds no tab (Python then yields a 1-element list, the malformed
case). -/
def splitFirstTab (s : String) : Option (String × String) :=
  if s.data.contains '\t' then
    some (⟨s.data.takeWhile (· != '\t')⟩, ⟨(s.data.dropWhile (· != '\t')).tail⟩)
  else none

/-- `metadata_dict[key] = value` under Python dict semantics: if the key is
already present its value is overwritten in place, otherwise the pair is
appended (insertion order). -/
def dictInsert (d : List MProp) (k v : String) : List MProp :=
  if d.any (fun p => decide (p.1 = k)) then
    d.map (fun p => if p.1 = k then (k, v) else p)
  else d ++ [(k, v)]

/-- The parsing loop of `import_metadata`, carrying the dict built so far
and the number of malformed (skipped) lines. -/
def readRecordsGo (d : List MProp) (skipped : Nat) : List String → List MProp × Nat
  | [] => (d, skipped)
  | line :: rest =>
    let s := stripNl line
    if s = "" then readRecordsGo d skipped rest
    else
      match splitFirstTab s with
      | some (k, v) => readRecordsGo (dictInsert d k v) skipped rest
      | none => readRecordsGo d (skipped + 1) rest

/-- Parse a metadata file (as its list of raw lines) into the ordered
key-deduplicating mapping `metadata_dict` plus the count of skipped
malformed lines. -/
def readRecords (lines : List String) : List MProp × Nat :=
  readRecordsGo [] 0 lines

/-! ### `onnx_metadata.py` — merge / replace (`import_metadata`, lines 90-120) -/

/-- Import mode (`--mode` choice, default `merge`). -/
inductive Mode
  | merge
  | replace
deriving DecidableEq

/-- `prop.key in metadata_dict`. -/
def hasKey (d : List MProp) (k : String) : Bool := d.any (fun p => decide (p.1 = k))

/-- `[i for i, prop in enumerate(props) if prop.key in metadata_dict]`,
with `i` the running `enumerate` index. -/
def keysToRemoveFrom (d : List MProp) : List MProp → Nat → List Nat
  | [], _ => []
  | p :: ps, i =>
    if hasKey d p.1 then i :: keysToRemoveFrom d ps (i + 1)
    else keysToRemoveFrom d ps (i + 1)

/-- `keys_to_remove` of `import_metadata` (indices into the original
`metadata_props`). -/
def keysToRemove (d : List MProp) (props : List MProp) : List Nat :=
  keysToRemoveFrom d props 0

/-- `for i in reversed(keys_to_remove): del model.metadata_props[i]`. -/
def deleteReversed (props : List MProp) (idxs : List Nat) : List MProp :=
  idxs.reverse.foldl (fun acc i => acc.eraseIdx i) props

/-- The metadata transform of `import_metadata`: mode-specific deletion
(lines 90-102) followed by appending every `metadata_dict` item in dict
order (lines 105-108). -/
def applyMode (props d : List MProp) : Mode → List MProp
  | Mode.replace => [] ++ d
  | Mode.merge => deleteReversed props (keysToRemove d props) ++ d

/-- `len(keys_to_remove)` — the `更新` (updated) count printed on line 120. -/
def updatedCount (props d : List MProp) : Nat :=
  (keysToRemove d props).length

/-- `new_count = len(model.metadata_props)` after a merge (line 117). -/
def newCount (props d : List MProp) : Nat :=
  (applyMode props d Mode.merge).length

/-- `added_count = new_count - (original_count - len(keys_to_remove))`
(line 118) — the `新增` (added) count printed on line 120. -/
def addedCount (props d : List MProp) : Nat :=
  newCount props d - (props.length - updatedCount props d)

/-- `new_count - len(metadata_dict)` — the `保留` (retained) count printed
on line 120. -/
def retainedCount (props d : List MProp) : Nat :=
  newCount props d - d.length

/-! ### `onnx_metadata.py` — export (`export_metadata`, lines 33-35) -/

/-- The lines `export_metadata` writes: `f"{prop.key}\t{prop.value}\n"`
for each entry, in stored order. -/
def exportLines (props : List MProp) : List String :=
  props.map (fun p => p.1 ++ "\t" ++ p.2 ++ "\n")

/-! ### Document model

The fields of an ONNX `ModelProto` / `GraphProto` that the scripts read. -/

/-- One operator node (`NodeProto` fields used by the viewers). -/
structure Node where
  name : String
  op_type : String
  input : List String
  output : List String
deriving DecidableEq

/-- A graph input/output entry (`ValueInfoProto` fields used). -/
structure ValueInfo where
  name : String
  elem_type : Nat
deriving DecidableEq

/-- An initializer (`TensorProto` fields used). -/
structure Tensor where
  name : String
  dims : List Nat
  data_type : Nat
deriving DecidableEq

/-- `GraphProto` fields used by the scripts. -/
structure Graph where
  name : String
  node : List Node
  input : List ValueInfo
  output : List ValueInfo
  initializer : List Tensor
deriving DecidableEq

/-- `ModelProto` fields used by the scripts. -/
structure Document where
  ir_version : Nat
  producer_name : String
  producer_version : String
  opset_import : List (String × Nat)
  metadata_props : List MProp
  graph : Graph
deriving DecidableEq

/-- The whole-document effect of `import_metadata`: the model written to
`output_path` differs from the loaded model only in `metadata_props`
(the code touches no other field before `onnx.save`). -/
def importDocument (doc : Document) (d : List MProp) (mode : Mode) : Document :=
  { doc with metadata_props := applyMode doc.metadata_props d mode }

/-! ### `onnx_dump.py` — operator histogram (`show_operators_table`, lines 146-166)

`Counter(node.op_type for node in graph.node)` counts in iteration order:
a CPython `Counter` is a dict, so keys sit at their first-occurrence
position and repeated op_types bump the stored count in place.
`most_common()` is `sorted(items, key=count, reverse=True)` — a stable
descending sort by count.  `onnx_viewer_gui.py` (`update_overview`, lines
245-251) computes the same listing via a `defaultdict(int)` tally followed
by the stable `sorted(op_count.items(), key=lambda x: -x[1])`. -/

/-- One `Counter` / `defaultdict(int)` increment: `op_count[t] += 1`. -/
def tallyInsert (c : List (String × Nat)) (t : String) : List (String × Nat) :=
  if c.any (fun p => decide (p.1 = t)) then
    c.map (fun p => if p.1 = t then (p.1, p.2 + 1) else p)
  else c ++ [(t, 1)]

/-- `Counter(node.op_type for node in graph.node)` as its insertion-ordered
item list. -/
def opCounter (ops : List String) : List (String × Nat) :=
  ops.foldl tallyInsert []

/-- The comparison underlying `sorted(..., key=count, reverse=True)`:
`x` may precede `y` iff `y.count ≤ x.count`. -/
def countDesc (x y : String × Nat) : Bool := decide (y.2 ≤ x.2)

/-- `op_counter.most_common()`: stable descending sort of the counter
items by count. -/
def mostCommon (ops : List String) : List (String × Nat) :=
  (opCounter ops).mergeSort countDesc

/-! ### `onnx_dump.py` / `onnx_dump_simple.py` — parameter count and
magnitude formatting (lines 105-112 resp. 125-132)

```
total_params = sum(int(np.prod(init.dims)) for init in graph.initializer if init.dims)
if total_params >= 1_000_000:   params_str = f"{total_params / 1_000_000:.2f}M"
elif total_params >= 1_000:     params_str = f"{total_params / 1_000:.2f}K"
else:                           params_str = str(total_params)
```
-/

/-- `np.prod(dims)` on a non-empty integer dims list (product; `np.prod`
of an empty list would be 1, but the call sites guard with `if init.dims`). -/
def prodDims (dims : List Nat) : Nat := dims.foldl (· * ·) 1

/-- `total_params`: sum of `np.prod(init.dims)` over initializers whose
`dims` is non-empty (the `if init.dims` guard). -/
def totalParams (inits : List Tensor) : Nat :=
  ((inits.filter (fun i => !i.dims.isEmpty)).map (fun i => prodDims i.dims)).sum

/-- Decimal rendering of `num / den` with two fractional digits, the effect
of CPython `f"{num / den:.2f}"` for the magnitudes used here (exact
round-half-even on the true quotient; coincides with the float-based
rendering at every input this file evaluates it on, in particular at the
spec's boundary inputs 999, 1000, 999999, 1000000). -/
def twoDecimals (num den : Nat) : String :=
  let q := num * 100 / den
  let r := num * 100 % den
  let h := if den < 2 * r then q + 1
           else if 2 * r < den then q
           else if q % 2 = 0 then q else q + 1
  toString (h / 100) ++ "." ++ (if h % 100 < 10 then "0" else "") ++ toString (h % 100)

/-- The `params_str` magnitude formatting shared by `onnx_dump.py`
(lines 107-112) and `onnx_dump_simple.py` (lines 127-132). -/
def formatCount (n : Nat) : String :=
  if 1000000 ≤ n then twoDecimals n 1000000 ++ "M"
  else if 1000 ≤ n then twoDecimals n 1000 ++ "K"
  else toString n

/-! ### `onnx_viewer_gui.py` — structure tree (`update_structure_tree`,
lines 305-364)

```
op_groups = defaultdict(list)
for node in graph.node:
    op_groups[node.op_type].append(node)
...
for op_type in sorted(op_groups.keys()):
    ... children = op_groups[op_type] ...
```

Top-level items are appended in the order: inputs, nodes, initializers
(only when `graph.initializer` is non-empty — the `if graph.initializer:`
guard on line 344), outputs. -/

/-- One `op_groups[node.op_type].append(node)` step on a
`defaultdict(list)`. -/
def groupInsert (g : List (String × List Node)) (n : Node) : List (String × List Node) :=
  if g.any (fun p => decide (p.1 = n.op_type)) then
    g.map (fun p => if p.1 = n.op_type then (p.1, p.2 ++ [n]) else p)
  else g ++ [(n.op_type, [n])]

/-- The `op_groups` dict as its insertion-ordered item list. -/
def opGroups (nodes : List Node) : List (String × List Node) :=
  nodes.foldl groupInsert []

/-- Dict lookup `op_groups[op_type]` (first, and only, matching key). -/
def lookupGroup : List (String × List Node) → String → List Node
  | [], _ => []
  | p :: ps, t => if p.1 = t then p.2 else lookupGroup ps t

/-- The node branch content: `for op_type in sorted(op_groups.keys())`,
each group carrying `op_groups[op_type]`. -/
def sortedGroups (nodes : List Node) : List (String × List Node) :=
  (((opGroups nodes).map Prod.fst).mergeSort strLe).map
    (fun t => (t, lookupGroup (opGroups nodes) t))

/-- A top-level branch of the structure tree, carrying the entities its
leaves are built from. -/
inductive Branch
  | inputs (vs : List ValueInfo)
  | nodes (groups : List (String × List Node))
  | inits (ts : List Tensor)
  | outputs (vs : List ValueInfo)
deriving DecidableEq

/-- The top-level items `update_structure_tree` adds, in order. -/
def structureTree (g : Graph) : List Branch :=
  [Branch.inputs g.input, Branch.nodes (sortedGroups g.node)]
    ++ (if g.initializer.isEmpty then [] else [Branch.inits g.initializer])
    ++ [Branch.outputs g.output]

/-! ### Specification-side characterisations

These definitions express the properties the claims state; the theorems
below relate them to the source embeddings above. -/

/-- First-occurrence deduplication, skipping keys already in `seen`. -/
def firstDedupFrom (seen : List String) : List String → List String
  | [] => []
  | k :: ks =>
    if k ∈ seen then firstDedupFrom seen ks
    else k :: firstDedupFrom (k :: seen) ks

/-- First-occurrence deduplication of a key list. -/
def firstDedup (ks : List String) : List String := firstDedupFrom [] ks

/-- The valid records of a line list: every stripped line that holds a tab,
split at its first tab, in file order. -/
def validRecords (lines : List String) : List MProp :=
  lines.filterMap (fun l => splitFirstTab (stripNl l))

/-- The value carried by the last record with the given key, if any. -/
def lastVal : List MProp → String → Option String
  | [], _ => none
  | p :: ps, k =>
    match lastVal ps k with
    | some v => some v
    | none => if p.1 = k then some p.2 else none

/-- First-match association lookup (dict indexing). -/
def lookupVal : List MProp → String → Option String
  | [], _ => none
  | p :: ps, k => if p.1 = k then some p.2 else lookupVal ps k

/-- The number of malformed lines: non-empty after stripping, but holding
no tab. -/
def malformedCount (lines : List String) : Nat :=
  (lines.filter (fun l => (stripNl l != "") && (splitFirstTab (stripNl l)).isNone)).length

/-! ### Lemmas: Python dict insertion -/

/-! ### Lemmas: the parsing loop -/

theorem firstDedupFrom_congr :
    ∀ (ks seen1 seen2 : List String),
      (∀ x, x ∈ seen1 ↔ x ∈ seen2) →
      firstDedupFrom seen1 ks = firstDedupFrom seen2 ks
  | [], _, _, _ => rfl
  | k :: ks, seen1, seen2, h => by
    rw [firstDedupFrom, firstDedupFrom]
    by_cases hk : k ∈ seen2
    · rw [if_pos ((h k).mpr hk), if_pos hk]
      exact firstDedupFrom_congr ks seen1 seen2 h
    · rw [if_neg (fun hc => hk ((h k).mp hc)), if_neg hk]
      refine congrArg (k :: ·) (firstDedupFrom_congr ks _ _ ?_)
      intro x
      simp [h x]

theorem hasKey_iff {d : List MProp} {k : String} :
    hasKey d k = true ↔ k ∈ d.map Prod.fst := by
  simp [hasKey, List.any_eq_true, List.mem_map]

theorem lookupVal_eq_none {d : List MProp} {k : String} (h : hasKey d k = false) :
    lookupVal d k = none := by
  induction d with
  | nil => rfl
  | cons p ps ih =>
    simp only [hasKey, List.any_cons, Bool.or_eq_false_iff, decide_eq_false_iff_not] at h
    simp only [lookupVal, if_neg h.1]
    exact ih h.2

theorem lookupVal_append (xs ys : List MProp) (k : String) :
    lookupVal (xs ++ ys) k =
      match lookupVal xs k with
      | some v => some v
      | none => lookupVal ys k := by
  induction xs with
  | nil => rfl
  | cons p ps ih =>
    by_cases hp : p.1 = k
    · simp [lookupVal, hp]
    · simp [lookupVal, hp, ih]

theorem map_fst_dictInsert (d : List MProp) (k v : String) :
    (dictInsert d k v).map Prod.fst =
      if hasKey d k then d.map Prod.fst else d.map Prod.fst ++ [k] := by
  unfold dictInsert hasKey
  by_cases h : d.any (fun p => decide (p.1 = k))
  · simp only [h, if_true, List.map_map]
    apply List.map_congr_left
    intro p _
    by_cases hp : p.1 = k
    · simp [Function.comp, hp]
    · simp [Function.comp, hp]
  · simp [h]

theorem lookupVal_dictInsert_self (d : List MProp) (k v : String) :
    lookupVal (dictInsert d k v) k = some v := by
  unfold dictInsert
  by_cases h : d.any (fun p => decide (p.1 = k))
  · simp only [h, if_true]
    induction d with
    | nil => simp at h
    | cons p ps ih =>
      by_cases hp : p.1 = k
      · simp [lookupVal, hp]
      · simp only [List.any_cons, hp, decide_eq_true_eq, Bool.false_or,
          decide_eq_false_iff_not, not_false_iff] at h
        have h2 : ps.any (fun p => decide (p.1 = k)) = true := by
          simpa [hp] using h
        simp [lookupVal, hp, ih h2]
  · simp only [h, Bool.false_eq_true, if_false]
    rw [lookupVal_append, lookupVal_eq_none (Bool.eq_false_iff.mpr h)]
    simp [lookupVal]

theorem lookupVal_dictInsert_ne (d : List MProp) (k v k2 : String) (hne : k2 ≠ k) :
    lookupVal (dictInsert d k v) k2 = lookupVal d k2 := by
  unfold dictInsert
  by_cases h : d.any (fun p => decide (p.1 = k))
  · simp only [h, if_true]
    clear h
    induction d with
    | nil => rfl
    | cons p ps ih =>
      by_cases hp : p.1 = k
      · have hp2 : ¬ p.1 = k2 := by rw [hp]; exact fun h => hne h.symm
        simp [lookupVal, hp, hp2, Ne.symm hne, ih]
      · by_cases hp2 : p.1 = k2
        · simp [lookupVal, hp, hp2, hne]
        · simp [lookupVal, hp, hp2, ih]
  · simp only [h, Bool.false_eq_true, if_false]
    rw [lookupVal_append]
    cases hx : lookupVal d k2 with
    | some v2 => rfl
    | none => simp [lookupVal, Ne.symm hne]

theorem readRecordsGo_eq_foldl :
    ∀ (lines : List String) (d : List MProp) (n : Nat),
      readRecordsGo d n lines =
        ((validRecords lines).foldl (fun c p => dictInsert c p.1 p.2) d,
         n + malformedCount lines)
  | [], d, n => by simp [readRecordsGo, validRecords, malformedCount]
  | line :: rest, d, n => by
    by_cases hs : stripNl line = ""
    · have ht : splitFirstTab (stripNl line) = none := by rw [hs]; rfl
      have e1 : readRecordsGo d n (line :: rest) = readRecordsGo d n rest := by
        simp [readRecordsGo, hs]
      have e2 : validRecords (line :: rest) = validRecords rest := by
        simp [validRecords, List.filterMap_cons, ht]
      have e3 : malformedCount (line :: rest) = malformedCount rest := by
        simp [malformedCount, List.filter_cons, hs]
      rw [e1, e2, e3]
      exact readRecordsGo_eq_foldl rest d n
    · cases ht : splitFirstTab (stripNl line) with
      | some kv =>
        obtain ⟨k, v⟩ := kv
        have e1 : readRecordsGo d n (line :: rest)
            = readRecordsGo (dictInsert d k v) n rest := by
          simp [readRecordsGo, hs, ht]
        have e2 : validRecords (line :: rest) = (k, v) :: validRecords rest := by
          simp [validRecords, List.filterMap_cons, ht]
        have e3 : malformedCount (line :: rest) = malformedCount rest := by
          simp [malformedCount, List.filter_cons, ht]
        rw [e1, e2, e3, List.foldl_cons]
        exact readRecordsGo_eq_foldl rest (dictInsert d k v) n
      | none =>
        have e1 : readRecordsGo d n (line :: rest) = readRecordsGo d (n + 1) rest := by
          simp [readRecordsGo, hs, ht]
        have e2 : validRecords (line :: rest) = validRecords rest := by
          simp [validRecords, List.filterMap_cons, ht]
        have e3 : malformedCount (line :: rest) = malformedCount rest + 1 := by
          simp [malformedCount, List.filter_cons, ht, bne_iff_ne, hs]
        rw [e1, e2, e3, readRecordsGo_eq_foldl rest d (n + 1)]
        refine congrArg (Prod.mk _) ?_
        omega

theorem foldl_dictInsert_keys :
    ∀ (recs : List MProp) (d : List MProp),
      (recs.foldl (fun c p => dictInsert c p.1 p.2) d).map Prod.fst
        = d.map Prod.fst ++ firstDedupFrom (d.map Prod.fst) (recs.map Prod.fst)
  | [], d => by simp [firstDedupFrom]
  | (k, v) :: recs, d => by
    rw [List.foldl_cons, foldl_dictInsert_keys recs (dictInsert d k v),
      map_fst_dictInsert, List.map_cons, firstDedupFrom]
    by_cases h : hasKey d k
    · rw [if_pos h, if_pos (hasKey_iff.mp h)]
    · rw [if_neg h, if_neg (fun hm => h (hasKey_iff.mpr hm))]
      have hmem : ∀ x, x ∈ (d.map Prod.fst ++ [k]) ↔ x ∈ (k :: d.map Prod.fst) := by
        intro x; simp [or_comm]
      rw [firstDedupFrom_congr (recs.map Prod.fst) _ _ hmem, List.append_assoc]
      rfl

theorem foldl_dictInsert_lookup :
    ∀ (recs : List MProp) (d : List MProp) (k : String),
      lookupVal (recs.foldl (fun c p => dictInsert c p.1 p.2) d) k
        = match lastVal recs k with
          | some v => some v
          | none => lookupVal d k
  | [], _, _ => by simp [lastVal]
  | (k0, v0) :: recs, d, k => by
    rw [List.foldl_cons, foldl_dictInsert_lookup recs (dictInsert d k0 v0) k]
    cases hl : lastVal recs k with
    | some v => simp [lastVal, hl]
    | none =>
      simp only [lastVal, hl]
      by_cases hk : k0 = k
      · subst hk
        simp [lookupVal_dictInsert_self]
      · simp [hk, lookupVal_dictInsert_ne d k0 v0 k (fun h => hk h.symm)]

/-! ### Lemmas: merge-mode deletion equals filtering -/

theorem keysToRemoveFrom_succ (d : List MProp) :
    ∀ (ps : List MProp) (i : Nat),
      keysToRemoveFrom d ps (i + 1) = (keysToRemoveFrom d ps i).map (· + 1)
  | [], _ => rfl
  | p :: ps, i => by
    by_cases h : hasKey d p.1
    · simp [keysToRemoveFrom, h, keysToRemoveFrom_succ d ps (i + 1)]
    · simp [keysToRemoveFrom, h, keysToRemoveFrom_succ d ps (i + 1)]

theorem foldl_eraseIdx_map_succ {α : Type} :
    ∀ (js : List Nat) (a : α) (l : List α),
      (js.map (· + 1)).foldl (fun acc i => acc.eraseIdx i) (a :: l)
        = a :: js.foldl (fun acc i => acc.eraseIdx i) l
  | [], _, _ => rfl
  | j :: js, a, l => by
    simp only [List.map_cons, List.foldl_cons, List.eraseIdx_cons_succ]
    exact foldl_eraseIdx_map_succ js a (l.eraseIdx j)

theorem deleteReversed_eq_filter (d : List MProp) :
    ∀ props : List MProp,
      deleteReversed props (keysToRemove d props)
        = props.filter (fun p => !hasKey d p.1)
  | [] => rfl
  | p :: ps => by
    unfold deleteReversed keysToRemove
    rw [keysToRemoveFrom]
    by_cases h : hasKey d p.1
    · rw [if_pos h, keysToRemoveFrom_succ, List.reverse_cons, List.foldl_append,
        ← List.map_reverse, foldl_eraseIdx_map_succ]
      have ih := deleteReversed_eq_filter d ps
      unfold deleteReversed keysToRemove at ih
      rw [ih]
      simp [List.filter_cons, h]
    · rw [if_neg h, keysToRemoveFrom_succ, ← List.map_reverse, foldl_eraseIdx_map_succ]
      have ih := deleteReversed_eq_filter d ps
      unfold deleteReversed keysToRemove at ih
      rw [ih]
      simp [List.filter_cons, h]

/-- Merge mode is: keep (in order, with value) every original entry whose
key is absent from the incoming mapping, then append the mapping. -/
theorem applyMode_merge_eq (props d : List MProp) :
    applyMode props d Mode.merge = props.filter (fun p => !hasKey d p.1) ++ d :=
  congrArg (· ++ d) (deleteReversed_eq_filter d props)

/-! ### Lemmas: export/import round trip -/

theorem data_export_line (k v : String) :
    (k ++ "\t" ++ v ++ "\n").data = k.data ++ '\t' :: (v.data ++ ['\n']) := by
  simp [String.data_append]

theorem dropWhile_nl_eq_self {v : List Char} (hv : '\n' ∉ v)
    (w : List Char) :
    (v.reverse ++ '\t' :: w).dropWhile (· == '\n') = v.reverse ++ '\t' :: w := by
  cases hrev : v.reverse with
  | nil => simp [List.dropWhile_cons]
  | cons c cs =>
    have hc : c ∈ v := by
      have : c ∈ v.reverse := by rw [hrev]; exact List.mem_cons_self _ _
      simp only [List.mem_reverse] at this
      exact this
    have hcn : ¬ c = '\n' := fun h => hv (h ▸ hc)
    simp [List.dropWhile_cons, hcn]

theorem stripNl_export (k v : String) (hv : '\n' ∉ v.data) :
    stripNl (k ++ "\t" ++ v ++ "\n") = k ++ "\t" ++ v := by
  apply String.ext
  show ((k ++ "\t" ++ v ++ "\n").data.reverse.dropWhile (· == '\n')).reverse
      = (k ++ "\t" ++ v).data
  rw [data_export_line]
  have hd : (k ++ "\t" ++ v).data = k.data ++ '\t' :: v.data := by
    simp [String.data_append]
  rw [hd]
  rw [show k.data ++ '\t' :: (v.data ++ ['\n'])
      = (k.data ++ '\t' :: v.data) ++ ['\n'] by simp]
  rw [List.reverse_append]
  simp only [List.reverse_cons, List.reverse_nil, List.nil_append,
    List.singleton_append]
  rw [List.dropWhile_cons]
  simp only [beq_self_eq_true, if_true]
  rw [show (k.data ++ '\t' :: v.data).reverse
      = v.data.reverse ++ '\t' :: k.data.reverse by simp]
  rw [dropWhile_nl_eq_self hv]
  rw [show v.data.reverse ++ '\t' :: k.data.reverse
      = (k.data ++ '\t' :: v.data).reverse by simp]
  exact List.reverse_reverse _

theorem takeWhile_no_tab {cs : List Char} (h : '\t' ∉ cs) (rest : List Char) :
    (cs ++ '\t' :: rest).takeWhile (· != '\t') = cs := by
  induction cs with
  | nil => simp [List.takeWhile_cons]
  | cons c cs2 ih =>
    have hc : ¬ c = '\t' := fun he => h (he ▸ List.mem_cons_self _ _)
    simp [List.takeWhile_cons, hc, ih (fun hm => h (List.mem_cons_of_mem _ hm))]

theorem dropWhile_no_tab {cs : List Char} (h : '\t' ∉ cs) (rest : List Char) :
    (cs ++ '\t' :: rest).dropWhile (· != '\t') = '\t' :: rest := by
  induction cs with
  | nil => simp [List.dropWhile_cons]
  | cons c cs2 ih =>
    have hc : ¬ c = '\t' := fun he => h (he ▸ List.mem_cons_self _ _)
    simp [List.dropWhile_cons, hc, ih (fun hm => h (List.mem_cons_of_mem _ hm))]

theorem splitFirstTab_key_value (k v : String) (hk : '\t' ∉ k.data) :
    splitFirstTab (k ++ "\t" ++ v) = some (k, v) := by
  have hd : (k ++ "\t" ++ v).data = k.data ++ '\t' :: v.data := by
    simp [String.data_append]
  have hmem : '\t' ∈ (k ++ "\t" ++ v).data := by
    rw [hd]; exact List.mem_append_right _ (List.mem_cons_self _ _)
  unfold splitFirstTab
  rw [if_pos (by simp only [List.contains_iff_exists_mem_beq]; exact ⟨'\t', hmem, by simp⟩)]
  rw [hd, takeWhile_no_tab hk, dropWhile_no_tab hk]
  simp

theorem hasKey_append (d : List MProp) (q : MProp) (x : String) :
    hasKey (d ++ [q]) x = (hasKey d x || decide (q.1 = x)) := by
  simp [hasKey, List.any_append]

theorem dictInsert_fresh {d : List MProp} {k : String} (v : String)
    (h : hasKey d k = false) :
    dictInsert d k v = d ++ [(k, v)] := by
  unfold dictInsert
  rw [show (d.any fun p => decide (p.1 = k)) = hasKey d k from rfl, h]
  simp

theorem readRecordsGo_exportLines :
    ∀ (props d : List MProp) (n : Nat),
      (∀ p ∈ props, hasKey d p.1 = false) →
      (props.map Prod.fst).Nodup →
      (∀ p ∈ props, '\t' ∉ p.1.data ∧ '\n' ∉ p.1.data ∧ '\n' ∉ p.2.data) →
      readRecordsGo d n (exportLines props) = (d ++ props, n)
  | [], d, n, _, _, _ => by simp [exportLines, readRecordsGo]
  | (k, v) :: props, d, n, hfresh, hnd, hchar => by
    have hc := hchar (k, v) (List.mem_cons_self _ _)
    have hstrip : stripNl (k ++ "\t" ++ v ++ "\n") = k ++ "\t" ++ v :=
      stripNl_export k v hc.2.2
    have hsplit : splitFirstTab (k ++ "\t" ++ v) = some (k, v) :=
      splitFirstTab_key_value k v hc.1
    have hne : ¬ (k ++ "\t" ++ v) = "" := by
      intro h
      have : (k ++ "\t" ++ v).data = [] := by rw [h]
      rw [show (k ++ "\t" ++ v).data = k.data ++ '\t' :: v.data by
        simp [String.data_append]] at this
      simpa using congrArg List.length this
    have e1 : exportLines ((k, v) :: props)
        = (k ++ "\t" ++ v ++ "\n") :: exportLines props := rfl
    rw [e1, readRecordsGo, hstrip]
    simp only [hne, if_false, hsplit]
    rw [dictInsert_fresh v (hfresh (k, v) (List.mem_cons_self _ _))]
    have hknotin : k ∉ props.map Prod.fst := by
      have := hnd
      simp only [List.map_cons, List.nodup_cons] at this
      exact this.1
    have hf2 : ∀ p ∈ props, hasKey (d ++ [(k, v)]) p.1 = false := by
      intro p hp
      rw [hasKey_append]
      have h1 : hasKey d p.1 = false := hfresh p (List.mem_cons_of_mem _ hp)
      have h2 : ¬ k = p.1 := fun he =>
        hknotin (he ▸ List.mem_map_of_mem Prod.fst hp)
      simp [h1, h2]
    have hnd2 : (props.map Prod.fst).Nodup := by
      have := hnd
      simp only [List.map_cons, List.nodup_cons] at this
      exact this.2
    have hch2 : ∀ p ∈ props, '\t' ∉ p.1.data ∧ '\n' ∉ p.1.data ∧ '\n' ∉ p.2.data :=
      fun p hp => hchar p (List.mem_cons_of_mem _ hp)
    rw [readRecordsGo_exportLines props (d ++ [(k, v)]) n hf2 hnd2 hch2]
    simp

/-! ## Claim theorems -/

/-- C1: merge mode yields the original `metadata_props` in order with every
entry whose key occurs in the incoming mapping removed (all occurrences,
including duplicates), followed by the mapping's entries appended in its
own order; untouched entries keep their value and relative order (they
form the filter of the original list, a prefix of the result). -/
theorem merge_filters_originals_then_appends_mapping (props d : List MProp) :
    applyMode props d Mode.merge = props.filter (fun p => !hasKey d p.1) ++ d ∧
    List.Sublist (props.filter (fun p => !hasKey d p.1))
      (applyMode props d Mode.merge) ∧
    List.IsSuffix d (applyMode props d Mode.merge) := by
  have h := applyMode_merge_eq props d
  refine ⟨h, ?_, ?_⟩
  · rw [h]; exact List.sublist_append_left _ _
  · rw [h]; exact List.suffix_append _ _

/-- C2 (amended): in replace mode the result keys are exactly the incoming
mapping's keys, hence unique; in merge mode the result keys are unique
provided the input document's `metadata_props` keys are themselves unique.
(The original claim fails when the loaded list repeats a key absent from
the mapping — see the counterexample.) -/
theorem result_keys_nodup (props d : List MProp)
    (hd : (d.map Prod.fst).Nodup) :
    ((applyMode props d Mode.replace).map Prod.fst).Nodup ∧
    ((props.map Prod.fst).Nodup →
      ((applyMode props d Mode.merge).map Prod.fst).Nodup) := by
  constructor
  · simpa [applyMode] using hd
  · intro hp
    rw [applyMode_merge_eq, List.map_append, List.nodup_append]
    refine ⟨?_, hd, ?_⟩
    · exact hp.sublist ((List.filter_sublist _).map Prod.fst)
    · intro x hx hxd
      simp only [List.mem_map] at hx
      obtain ⟨p, hpmem, rfl⟩ := hx
      rw [List.mem_filter] at hpmem
      have hfalse : hasKey d p.1 = false := by simpa using hpmem.2
      exact absurd (hasKey_iff.mpr hxd) (by simp [hfalse])

/-- C2 witness: a run of the amended theorem on a concrete document and
mapping. -/
theorem result_keys_nodup_witness :
    ((applyMode [("a", "1")] [("b", "2")] Mode.replace).map Prod.fst).Nodup ∧
    ((applyMode [("a", "1")] [("b", "2")] Mode.merge).map Prod.fst).Nodup := by
  have h := result_keys_nodup [("a", "1")] [("b", "2")] (by decide)
  exact ⟨h.1, h.2 (by decide)⟩

/-- C2 counterexample: a loaded document whose `metadata_props` repeats key
`a`, merged with a mapping that does not mention `a`, keeps both copies —
the result has two entries sharing a key. -/
theorem result_keys_nodup_counterexample :
    applyMode [("a", "1"), ("a", "2")] [("b", "3")] Mode.merge
      = [("a", "1"), ("a", "2"), ("b", "3")] ∧
    ¬ ((applyMode [("a", "1"), ("a", "2")] [("b", "3")] Mode.merge).map
        Prod.fst).Nodup := by
  constructor
  · decide
  · decide

/-- C3: on the spec's own end-to-end scenario (document
`[(x,1),(y,2)]`, import lines `y\t9` and `z\t5`, merge mode) the code
produces the expected result list with `updated = 1` and `retained = 1`,
but its `added_count = new_count - (original_count - len(keys_to_remove))`
evaluates to `|M| = 2`, not the specified `|M| - updated = 1`. -/
theorem merge_added_count_mismatch :
    readRecords ["y\t9", "z\t5"] = ([("y", "9"), ("z", "5")], 0) ∧
    applyMode [("x", "1"), ("y", "2")] [("y", "9"), ("z", "5")] Mode.merge
      = [("x", "1"), ("y", "9"), ("z", "5")] ∧
    updatedCount [("x", "1"), ("y", "2")] [("y", "9"), ("z", "5")] = 1 ∧
    retainedCount [("x", "1"), ("y", "2")] [("y", "9"), ("z", "5")] = 1 ∧
    addedCount [("x", "1"), ("y", "2")] [("y", "9"), ("z", "5")] = 2 ∧
    ([("y", "9"), ("z", "5")] : List MProp).length
      - updatedCount [("x", "1"), ("y", "2")] [("y", "9"), ("z", "5")] = 1 := by
  refine ⟨by decide, by decide, by decide, by decide, by decide, by decide⟩

/-- C4: record parsing builds an ordered key-deduplicating mapping — the
result's key sequence is the first-occurrence deduplication of the valid
records' keys, each key's value is the one of its last valid record, the
skip counter counts exactly the non-empty tab-less lines (the batch is
never aborted), a line splits at its first tab only, and the spec's
concrete examples evaluate as stated. -/
theorem parse_first_position_last_value (lines : List String) :
    (readRecords lines).1.map Prod.fst
      = firstDedup ((validRecords lines).map Prod.fst) ∧
    (∀ k, lookupVal (readRecords lines).1 k = lastVal (validRecords lines) k) ∧
    (readRecords lines).2 = malformedCount lines ∧
    splitFirstTab "a\tb\tc" = some ("a", "b\tc") ∧
    splitFirstTab "abc" = none ∧
    readRecords ["a\t1", "b\t2", "a\t3"] = ([("a", "3"), ("b", "2")], 0) ∧
    readRecords ["bad", "a\t1"] = ([("a", "1")], 1) := by
  have h := readRecordsGo_eq_foldl lines [] 0
  refine ⟨?_, ?_, ?_, by decide, by decide, by decide, by decide⟩
  · rw [readRecords, h]
    rw [show ((validRecords lines).foldl (fun c p => dictInsert c p.1 p.2) [],
        0 + malformedCount lines).1
      = (validRecords lines).foldl (fun c p => dictInsert c p.1 p.2) [] from rfl]
    rw [foldl_dictInsert_keys]
    rfl
  · intro k
    rw [readRecords, h]
    rw [show ((validRecords lines).foldl (fun c p => dictInsert c p.1 p.2) [],
        0 + malformedCount lines).1
      = (validRecords lines).foldl (fun c p => dictInsert c p.1 p.2) [] from rfl]
    rw [foldl_dictInsert_lookup]
    cases hl : lastVal (validRecords lines) k <;> simp [lookupVal]
  · rw [readRecords, h]
    simp

/-- C5: the transform never touches any document field other than
`metadata_props`: the output document shares the input's graph and all
other fields, and carries the freshly computed metadata list.  (In this
value-semantics embedding the input document itself is immutable by
construction, matching the claim's no-mutation requirement.) -/
theorem importDocument_frame (doc : Document) (d : List MProp) (mode : Mode) :
    (importDocument doc d mode).graph = doc.graph ∧
    (importDocument doc d mode).ir_version = doc.ir_version ∧
    (importDocument doc d mode).producer_name = doc.producer_name ∧
    (importDocument doc d mode).producer_version = doc.producer_version ∧
    (importDocument doc d mode).opset_import = doc.opset_import ∧
    (importDocument doc d mode).metadata_props
      = applyMode doc.metadata_props d mode :=
  ⟨rfl, rfl, rfl, rfl, rfl, rfl⟩

/-- C10: for a metadata list with pairwise-distinct keys, no tab or newline
in keys and no newline in values, exporting to `key<TAB>value` lines and
re-importing in replace mode reproduces the original list entry for entry,
on any target document. -/
theorem export_import_replace_roundtrip (props : List MProp)
    (hnd : (props.map Prod.fst).Nodup)
    (hchar : ∀ p ∈ props,
      '\t' ∉ p.1.data ∧ '\n' ∉ p.1.data ∧ '\n' ∉ p.2.data) :
    readRecords (exportLines props) = (props, 0) ∧
    ∀ doc : Document,
      importDocument doc (readRecords (exportLines props)).1 Mode.replace
        = { doc with metadata_props := props } := by
  have h : readRecords (exportLines props) = (props, 0) := by
    have hgo := readRecordsGo_exportLines props [] 0 (fun p _ => rfl) hnd hchar
    simpa [readRecords] using hgo
  refine ⟨h, ?_⟩
  intro doc
  rw [h]
  simp [importDocument, applyMode]

/-- C10 witness: the round trip on a concrete two-entry metadata list. -/
theorem export_import_replace_roundtrip_witness :
    readRecords (exportLines [("a", "1"), ("b", "2")])
      = ([("a", "1"), ("b", "2")], 0) :=
  (export_import_replace_roundtrip [("a", "1"), ("b", "2")]
    (by decide) (by decide)).1

/-- C8: the total parameter count is the sum over initializers of the
product of their dims, where an initializer with empty dims contributes
exactly 0 (not 1). -/
theorem totalParams_additive_empty_dims_zero (inits : List Tensor) :
    totalParams inits
      = (inits.map (fun i => if i.dims = [] then 0 else prodDims i.dims)).sum ∧
    ∀ nm dt, totalParams (⟨nm, [], dt⟩ :: inits) = totalParams inits := by
  constructor
  · induction inits with
    | nil => rfl
    | cons i rest ih =>
      by_cases hd : i.dims = []
      · have h1 : totalParams (i :: rest) = totalParams rest := by
          simp [totalParams, List.filter_cons, hd]
        rw [h1, ih]
        simp [hd]
      · have h1 : totalParams (i :: rest) = prodDims i.dims + totalParams rest := by
          simp [totalParams, List.filter_cons, List.isEmpty_iff, hd]
        rw [h1, ih]
        simp [hd]
  · intro nm dt
    simp [totalParams, List.filter_cons]

/-- C9: magnitude formatting renders counts below 1000 as the plain
decimal integer, counts in [1000, 1000000) with suffix `K`, counts of at
least 1000000 with suffix `M` (one consistent two-decimal-digit rule,
`:.2f`, throughout), and the boundary inputs evaluate as stated —
999 → "999", 1000 → "1.00K", 999999 → "1000.00K" (K-suffixed, just under
the M threshold), 1000000 → "1.00M". -/
theorem formatCount_thresholds_and_boundaries (n : Nat) :
    (n < 1000 → formatCount n = toString n) ∧
    (1000 ≤ n → n < 1000000 → ∃ s, formatCount n = s ++ "K") ∧
    (1000000 ≤ n → ∃ s, formatCount n = s ++ "M") ∧
    formatCount 999 = "999" ∧
    formatCount 1000 = "1.00K" ∧
    formatCount 999999 = "1000.00K" ∧
    formatCount 1000000 = "1.00M" := by
  refine ⟨?_, ?_, ?_, by decide, by decide, by decide, by decide⟩
  · intro h
    rw [formatCount, if_neg (by omega), if_neg (by omega)]
  · intro h1 h2
    exact ⟨twoDecimals n 1000, by rw [formatCount, if_neg (by omega), if_pos h1]⟩
  · intro h
    exact ⟨twoDecimals n 1000000, by rw [formatCount, if_pos h]⟩

/-- C9 witness: the threshold implications of the formatting theorem
instantiated at concrete counts in each regime. -/
theorem formatCount_thresholds_witness :
    formatCount 500 = toString 500 ∧
    (∃ s, formatCount 5000 = s ++ "K") ∧
    (∃ s, formatCount 5000000 = s ++ "M") :=
  ⟨(formatCount_thresholds_and_boundaries 500).1 (by decide),
   (formatCount_thresholds_and_boundaries 5000).2.1 (by decide) (by decide),
   (formatCount_thresholds_and_boundaries 5000000).2.2.1 (by decide)⟩

/-! ### Lemmas: the histogram ordering -/

theorem countDesc_trans : ∀ (a b c : String × Nat),
    countDesc a b → countDesc b c → countDesc a c := by
  intro a b c hab hbc
  simp only [countDesc, decide_eq_true_eq] at *
  omega

theorem countDesc_total : ∀ (a b : String × Nat),
    countDesc a b || countDesc b a := by
  intro a b
  simp only [countDesc]
  rcases Nat.le_total b.2 a.2 with h | h
  · simp [h]
  · simp [h]

theorem map_fst_tallyInsert (c : List (String × Nat)) (t : String) :
    (tallyInsert c t).map Prod.fst =
      if c.any (fun p => decide (p.1 = t)) then c.map Prod.fst
      else c.map Prod.fst ++ [t] := by
  unfold tallyInsert
  by_cases h : c.any (fun p => decide (p.1 = t))
  · simp only [h, if_true, List.map_map]
    apply List.map_congr_left
    intro p _
    by_cases hp : p.1 = t
    · simp [Function.comp, hp]
    · simp [Function.comp, hp]
  · simp [h]

theorem opCounter_keys_nodup (ops : List String) :
    ((opCounter ops).map Prod.fst).Nodup := by
  suffices h : ∀ (ops : List String) (c : List (String × Nat)),
      (c.map Prod.fst).Nodup → ((ops.foldl tallyInsert c).map Prod.fst).Nodup by
    exact h ops [] (by simp)
  intro ops
  induction ops with
  | nil => intro c hc; exact hc
  | cons t rest ih =>
    intro c hc
    rw [List.foldl_cons]
    apply ih
    rw [map_fst_tallyInsert]
    by_cases h : c.any (fun p => decide (p.1 = t))
    · simp [h, hc]
    · rw [if_neg h]
      have ht : t ∉ c.map Prod.fst := by
        intro hm
        simp only [List.mem_map] at hm
        obtain ⟨p, hp, rfl⟩ := hm
        exact h (List.any_eq_true.mpr ⟨p, hp, by simp⟩)
      simp [List.nodup_append, hc, ht]

theorem opCounter_nodup (ops : List String) : (opCounter ops).Nodup :=
  List.Nodup.of_map Prod.fst (opCounter_keys_nodup ops)

theorem pair_sublist_total {α : Type} :
    ∀ (l : List α) (x y : α), x ∈ l → y ∈ l → x ≠ y →
      List.Sublist [x, y] l ∨ List.Sublist [y, x] l
  | [], x, _, hx, _, _ => absurd hx (List.not_mem_nil x)
  | a :: t, x, y, hx, hy, hne => by
    rcases List.mem_cons.mp hx with rfl | hxt
    · rcases List.mem_cons.mp hy with rfl | hyt
      · exact absurd rfl hne
      · exact Or.inl ((List.singleton_sublist.mpr hyt).cons₂ x)
    · rcases List.mem_cons.mp hy with rfl | hyt
      · exact Or.inr ((List.singleton_sublist.mpr hxt).cons₂ y)
      · rcases pair_sublist_total t x y hxt hyt hne with h | h
        · exact Or.inl (h.cons a)
        · exact Or.inr (h.cons a)

theorem pair_sublist_antisymm {α : Type} :
    ∀ (l : List α), l.Nodup → ∀ x y : α, x ≠ y →
      List.Sublist [x, y] l → List.Sublist [y, x] l → False
  | [], _, x, y, _, h1, _ => by cases h1
  | a :: t, hnd, x, y, hne, h1, h2 => by
    have hat : a ∉ t := (List.nodup_cons.mp hnd).1
    have hndt : t.Nodup := (List.nodup_cons.mp hnd).2
    cases h1 with
    | cons _ h1t =>
      cases h2 with
      | cons _ h2t => exact pair_sublist_antisymm t hndt x y hne h1t h2t
      | cons₂ h2t =>
        exact hat (h1t.subset (by simp))
    | cons₂ h1t =>
      cases h2 with
      | cons _ h2t =>
        exact hat (h2t.subset (by simp))
      | cons₂ h2t => exact hne rfl

/-- C6 (amended): the histogram listing is a permutation of the
insertion-ordered counter, ordered descending by count with ties kept in
first-occurrence order (the position of the counter item, i.e. the op
type seen first comes first — not ascending lexical name), and the spec's
tie-free example evaluates exactly as stated. -/
theorem mostCommon_desc_first_occurrence_ties (ops : List String) :
    List.Perm (mostCommon ops) (opCounter ops) ∧
    List.Pairwise (fun x y : String × Nat =>
        y.2 < x.2 ∨ (y.2 = x.2 ∧ List.Sublist [x, y] (opCounter ops)))
      (mostCommon ops) ∧
    mostCommon ["Conv", "Relu", "Conv", "Add", "Relu", "Conv"]
      = [("Conv", 3), ("Relu", 2), ("Add", 1)] := by
  have hperm : List.Perm (mostCommon ops) (opCounter ops) :=
    List.mergeSort_perm (opCounter ops) countDesc
  have hnd : (mostCommon ops).Nodup := hperm.nodup_iff.mpr (opCounter_nodup ops)
  refine ⟨hperm, ?_, ?_⟩
  · rw [List.pairwise_iff_forall_sublist]
    intro x y hxy
    have hle : countDesc x y = true :=
      List.pairwise_iff_forall_sublist.mp
        (List.sorted_mergeSort countDesc_trans countDesc_total (opCounter ops)) hxy
    have hyx : y.2 ≤ x.2 := by simpa [countDesc] using hle
    rcases Nat.lt_or_ge y.2 x.2 with hlt | hge
    · exact Or.inl hlt
    · have heq : y.2 = x.2 := Nat.le_antisymm hyx hge
      refine Or.inr ⟨heq, ?_⟩
      have hne : x ≠ y := by
        rintro rfl
        have hxx : ([x, x] : List (String × Nat)).Nodup :=
          List.Pairwise.sublist hxy hnd
        simp at hxx
      have hx : x ∈ opCounter ops := hperm.subset (hxy.subset (by simp))
      have hy : y ∈ opCounter ops := hperm.subset (hxy.subset (by simp))
      rcases pair_sublist_total (opCounter ops) x y hx hy hne with h | h
      · exact h
      · exfalso
        have hys : List.Sublist [y, x] (mostCommon ops) :=
          List.pair_sublist_mergeSort countDesc_trans countDesc_total
            (by simp [countDesc, hge]) h
        exact pair_sublist_antisymm (mostCommon ops) hnd x y hne hxy hys
  · have hc : opCounter ["Conv", "Relu", "Conv", "Add", "Relu", "Conv"]
        = [("Conv", 3), ("Relu", 2), ("Add", 1)] := by decide
    rw [mostCommon, hc]
    simp +decide [List.mergeSort, List.merge]

/-- C6 counterexample: for nodes `[B, A]` both op types occur once; the
listing keeps the first-seen op type `B` first, whereas a descending-count
order with ascending-lexical tie-break would have to put `A` first. -/
theorem mostCommon_tiebreak_not_lexical :
    mostCommon ["B", "A"] = [("B", 1), ("A", 1)] ∧
    ¬ List.Pairwise (fun x y : String × Nat =>
        y.2 < x.2 ∨ (y.2 = x.2 ∧ strLt x.1 y.1 = true))
      (mostCommon ["B", "A"]) ∧
    mostCommon ["A", "B"] = [("A", 1), ("B", 1)] ∧
    mostCommon ["A", "B"] ≠ mostCommon ["B", "A"] := by
  have h : mostCommon ["B", "A"] = [("B", 1), ("A", 1)] := by
    have hc : opCounter ["B", "A"] = [("B", 1), ("A", 1)] := by decide
    rw [mostCommon, hc]
    simp +decide [List.mergeSort, List.merge]
  have h2 : mostCommon ["A", "B"] = [("A", 1), ("B", 1)] := by
    have hc : opCounter ["A", "B"] = [("A", 1), ("B", 1)] := by decide
    rw [mostCommon, hc]
    simp +decide [List.mergeSort, List.merge]
  refine ⟨h, ?_, h2, ?_⟩
  · rw [h]
    decide
  · rw [h, h2]
    decide

/-! ### Lemmas: lexicographic string order -/

theorem charListLe_total : ∀ (a b : List Char),
    (charListLe a b || charListLe b a) = true
  | [], _ => by simp [charListLe]
  | _ :: _, [] => by simp [charListLe]
  | a :: as, b :: bs => by
    by_cases h1 : a.toNat < b.toNat
    · simp [charListLe, h1]
    · by_cases h2 : b.toNat < a.toNat
      · simp [charListLe, h1, h2]
      · simp only [charListLe, if_neg h1, if_neg h2]
        exact charListLe_total as bs

theorem charListLe_trans : ∀ (a b c : List Char),
    charListLe a b → charListLe b c → charListLe a c
  | [], _, c => fun _ _ => by cases c <;> rfl
  | _ :: _, [], _ => fun hab _ => absurd hab (by simp [charListLe])
  | _ :: _, _ :: _, [] => fun _ hbc => absurd hbc (by simp [charListLe])
  | a :: as, b :: bs, c :: cs => by
    intro hab hbc
    rw [charListLe] at hab hbc ⊢
    by_cases h1 : a.toNat < b.toNat
    · by_cases h2 : b.toNat < c.toNat
      · rw [if_pos (Nat.lt_trans h1 h2)]
      · by_cases h4 : c.toNat < b.toNat
        · rw [if_neg h2, if_pos h4] at hbc
          exact absurd hbc (by simp)
        · rw [if_pos (by omega : a.toNat < c.toNat)]
    · by_cases h3 : b.toNat < a.toNat
      · rw [if_neg h1, if_pos h3] at hab
        exact absurd hab (by simp)
      · rw [if_neg h1, if_neg h3] at hab
        by_cases h2 : b.toNat < c.toNat
        · rw [if_pos (by omega : a.toNat < c.toNat)]
        · by_cases h4 : c.toNat < b.toNat
          · rw [if_neg h2, if_pos h4] at hbc
            exact absurd hbc (by simp)
          · rw [if_neg h2, if_neg h4] at hbc
            rw [if_neg (by omega : ¬ a.toNat < c.toNat),
              if_neg (by omega : ¬ c.toNat < a.toNat)]
            exact charListLe_trans as bs cs hab hbc

theorem strLe_trans : ∀ (a b c : String), strLe a b → strLe b c → strLe a c :=
  fun a b c => charListLe_trans a.data b.data c.data

theorem strLe_total : ∀ (a b : String), (strLe a b || strLe b a) = true :=
  fun a b => charListLe_total a.data b.data

/-! ### Lemmas: the node grouping -/

theorem map_fst_groupInsert (g : List (String × List Node)) (n : Node) :
    (groupInsert g n).map Prod.fst =
      if g.any (fun p => decide (p.1 = n.op_type)) then g.map Prod.fst
      else g.map Prod.fst ++ [n.op_type] := by
  unfold groupInsert
  by_cases h : g.any (fun p => decide (p.1 = n.op_type))
  · simp only [h, if_true, List.map_map]
    apply List.map_congr_left
    intro p _
    by_cases hp : p.1 = n.op_type
    · simp [Function.comp, hp]
    · simp [Function.comp, hp]
  · simp [h]

theorem lookupGroup_eq_nil {g : List (String × List Node)} {t : String}
    (h : t ∉ g.map Prod.fst) : lookupGroup g t = [] := by
  induction g with
  | nil => rfl
  | cons p ps ih =>
    have hp : ¬ p.1 = t := by
      intro he
      exact h (he ▸ List.mem_map_of_mem Prod.fst (List.mem_cons_self _ _))
    simp only [lookupGroup, if_neg hp]
    exact ih (fun hm => h (by simp only [List.map_cons, List.mem_cons]; exact Or.inr hm))

theorem lookupGroup_append (xs ys : List (String × List Node)) (t : String) :
    lookupGroup (xs ++ ys) t
      = if t ∈ xs.map Prod.fst then lookupGroup xs t else lookupGroup ys t := by
  induction xs with
  | nil => simp [lookupGroup]
  | cons p ps ih =>
    by_cases hp : p.1 = t
    · have hm : t ∈ (p :: ps).map Prod.fst := by
        simp only [List.map_cons, List.mem_cons]
        exact Or.inl hp.symm
      simp [lookupGroup, hp, hm]
    · have hiff : (t ∈ (p :: ps).map Prod.fst) ↔ (t ∈ ps.map Prod.fst) := by
        simp only [List.map_cons, List.mem_cons]
        constructor
        · rintro (he | hm)
          · exact absurd he.symm hp
          · exact hm
        · exact Or.inr
      rw [List.cons_append, lookupGroup, if_neg hp, ih]
      by_cases hm : t ∈ ps.map Prod.fst
      · rw [if_pos hm, if_pos (hiff.mpr hm)]
        simp [lookupGroup, hp]
      · rw [if_neg hm, if_neg (fun hc => hm (hiff.mp hc))]

theorem lookupGroup_map_ne (g : List (String × List Node)) (n : Node)
    (t : String) (hnt : ¬ n.op_type = t) :
    lookupGroup (g.map (fun p => if p.1 = n.op_type then (p.1, p.2 ++ [n]) else p)) t
      = lookupGroup g t := by
  induction g with
  | nil => rfl
  | cons p ps ih =>
    have htn : ¬ t = n.op_type := fun he => hnt he.symm
    by_cases hp : p.1 = n.op_type
    · have hpt : ¬ p.1 = t := fun he => hnt (hp ▸ he)
      simp [lookupGroup, hp, hpt, hnt, ih]
    · by_cases hpt : p.1 = t
      · simp [lookupGroup, hp, hpt, htn]
      · simp [lookupGroup, hp, hpt, ih]

theorem lookupGroup_map_self (g : List (String × List Node)) (n : Node)
    (h : g.any (fun p => decide (p.1 = n.op_type)) = true) :
    lookupGroup (g.map (fun p => if p.1 = n.op_type then (p.1, p.2 ++ [n]) else p))
        n.op_type
      = lookupGroup g n.op_type ++ [n] := by
  induction g with
  | nil => simp at h
  | cons p ps ih =>
    by_cases hp : p.1 = n.op_type
    · simp [lookupGroup, hp]
    · have hps : ps.any (fun p => decide (p.1 = n.op_type)) = true := by
        simpa [List.any_cons, hp] using h
      simp [lookupGroup, hp, ih hps]

theorem lookupGroup_groupInsert (g : List (String × List Node)) (n : Node)
    (t : String) :
    lookupGroup (groupInsert g n) t
      = lookupGroup g t ++ (if n.op_type = t then [n] else []) := by
  unfold groupInsert
  by_cases h : g.any (fun p => decide (p.1 = n.op_type))
  · rw [if_pos h]
    by_cases hnt : n.op_type = t
    · subst hnt
      simp [lookupGroup_map_self g n h]
    · simp [lookupGroup_map_ne g n t hnt, hnt]
  · rw [if_neg h, lookupGroup_append]
    by_cases hmem : t ∈ g.map Prod.fst
    · rw [if_pos hmem]
      have hnt : ¬ n.op_type = t := by
        intro he
        rcases List.mem_map.mp hmem with ⟨p, hp, he2⟩
        exact h (List.any_eq_true.mpr ⟨p, hp, by simp [he2, he]⟩)
      simp [hnt]
    · rw [if_neg hmem, lookupGroup_eq_nil hmem]
      simp [lookupGroup]

theorem lookupGroup_foldl :
    ∀ (nodes : List Node) (g : List (String × List Node)) (t : String),
      lookupGroup (nodes.foldl groupInsert g) t
        = lookupGroup g t ++ nodes.filter (fun n => decide (n.op_type = t))
  | [], g, t => by simp
  | n :: nodes, g, t => by
    rw [List.foldl_cons, lookupGroup_foldl nodes (groupInsert g n) t,
      lookupGroup_groupInsert, List.filter_cons]
    by_cases h : n.op_type = t
    · simp [h]
    · simp [h]

theorem foldl_groupInsert_keys :
    ∀ (nodes : List Node) (g : List (String × List Node)),
      (nodes.foldl groupInsert g).map Prod.fst
        = g.map Prod.fst ++ firstDedupFrom (g.map Prod.fst) (nodes.map Node.op_type)
  | [], g => by simp [firstDedupFrom]
  | n :: nodes, g => by
    rw [List.foldl_cons, foldl_groupInsert_keys nodes (groupInsert g n),
      map_fst_groupInsert, List.map_cons, firstDedupFrom]
    by_cases h : g.any (fun p => decide (p.1 = n.op_type))
    · have hm : n.op_type ∈ g.map Prod.fst := by
        obtain ⟨p, hp, he⟩ := List.any_eq_true.mp h
        simp only [decide_eq_true_eq] at he
        exact he ▸ List.mem_map_of_mem Prod.fst hp
      rw [if_pos h, if_pos hm]
    · have hm : n.op_type ∉ g.map Prod.fst := by
        intro hmem
        simp only [List.mem_map] at hmem
        obtain ⟨p, hp, he⟩ := hmem
        exact h (List.any_eq_true.mpr ⟨p, hp, by simp [he]⟩)
      rw [if_neg h, if_neg hm]
      have hcong : ∀ x, x ∈ (g.map Prod.fst ++ [n.op_type])
          ↔ x ∈ (n.op_type :: g.map Prod.fst) := by
        intro x; simp [or_comm]
      rw [firstDedupFrom_congr (nodes.map Node.op_type) _ _ hcong,
        List.append_assoc]
      rfl

theorem sortedGroups_eq (nodes : List Node) :
    sortedGroups nodes
      = ((firstDedup (nodes.map Node.op_type)).mergeSort strLe).map
          (fun t => (t, nodes.filter (fun n => decide (n.op_type = t)))) := by
  have hkeys : (opGroups nodes).map Prod.fst = firstDedup (nodes.map Node.op_type) := by
    have := foldl_groupInsert_keys nodes []
    simpa [opGroups, firstDedup] using this
  rw [sortedGroups, hkeys]
  apply List.map_congr_left
  intro t _
  have hlook : lookupGroup (opGroups nodes) t
      = nodes.filter (fun n => decide (n.op_type = t)) := by
    have := lookupGroup_foldl nodes [] t
    simpa [opGroups, lookupGroup] using this
  rw [hlook]

/-- C7 (amended): the tree projection always carries the inputs branch,
the nodes branch (grouped by op_type, groups in ascending lexical order,
nodes inside a group in their original `graph.nodes` order) and the
outputs branch, in that order — the nodes branch is present though empty
for a graph with zero nodes; the initializers branch, however, is emitted
only when `graph.initializer` is non-empty (the `if graph.initializer:`
guard), so a graph with zero initializers yields three top-level branches,
not four. -/
theorem structureTree_branches (g : Graph) :
    (g.initializer = [] →
      structureTree g
        = [Branch.inputs g.input, Branch.nodes (sortedGroups g.node),
           Branch.outputs g.output]) ∧
    (g.initializer ≠ [] →
      structureTree g
        = [Branch.inputs g.input, Branch.nodes (sortedGroups g.node),
           Branch.inits g.initializer, Branch.outputs g.output]) ∧
    sortedGroups g.node
      = ((firstDedup (g.node.map Node.op_type)).mergeSort strLe).map
          (fun t => (t, g.node.filter (fun n => decide (n.op_type = t)))) ∧
    List.Pairwise (fun a b : String × List Node => strLe a.1 b.1 = true)
      (sortedGroups g.node) := by
  refine ⟨?_, ?_, sortedGroups_eq g.node, ?_⟩
  · intro h
    simp [structureTree, h]
  · intro h
    have : g.initializer.isEmpty = false := by
      cases hi : g.initializer with
      | nil => exact absurd hi h
      | cons a t => rfl
    simp [structureTree, this]
  · rw [sortedGroups, List.pairwise_map]
    exact List.sorted_mergeSort strLe_trans strLe_total _

/-- C7 witness: the branch-shape implications instantiated on a concrete
graph without initializers and one with an initializer. -/
theorem structureTree_branches_witness :
    structureTree ⟨"g", [], [], [], []⟩
      = [Branch.inputs [], Branch.nodes (sortedGroups []), Branch.outputs []] ∧
    structureTree ⟨"g", [], [], [], [⟨"w", [2], 1⟩]⟩
      = [Branch.inputs [], Branch.nodes (sortedGroups []),
         Branch.inits [⟨"w", [2], 1⟩], Branch.outputs []] :=
  ⟨(structureTree_branches ⟨"g", [], [], [], []⟩).1 rfl,
   (structureTree_branches ⟨"g", [], [], [], [⟨"w", [2], 1⟩]⟩).2.1 (by simp)⟩

/-- C7 counterexample: a graph with no initializers produces three
top-level branches — the initializers branch is omitted entirely rather
than kept empty, so the tree does not consist of exactly four branches. -/
theorem structureTree_three_branches_when_no_initializers :
    (structureTree ⟨"g", [], [], [], []⟩).length = 3 ∧
    (structureTree ⟨"g", [], [], [], []⟩).length ≠ 4 := by
  constructor
  · simp [structureTree]
  · simp [structureTree]

end Onnxdump